import Mathlib

set_option maxRecDepth 8000

/-!
Verification of the Obsidian-Markdown-to-PDF converter core (src/main.py).

The embedding works on `List Char` (the logical model of Python `str`) and
mirrors the source functions:

* `preprocess_obsidian` — line-ending normalization followed by the multiline
  substitution of callout header lines (the pattern is anchored by a caret and
  a dollar with the dot not crossing newlines, so the substitution acts on
  whole lines; the embedding therefore splits on the line feed, rewrites each
  line, and joins back).
* `transform_callouts` (local function of `wrap_html_document`) — the
  non-greedy blockquote substitution with its inner marker search, marker
  removal, badge construction and badge insertion, each a faithful rendering
  of the corresponding deterministic regex (all quantified subpatterns in
  those regexes are forced: each greedy run is followed by a character the
  class excludes, so maximal munch with the one documented fallback for the
  optional title group is exactly the backtracking behaviour).
* `ConvertTask._compute_out_path` and `MainWindow._common_base` — paths are
  component lists (the logical content of `pathlib.Path` after parsing, which
  drops dot components); `os.path.commonpath` computes the longest common
  component prefix and raises on an empty input or mixed anchors.
* `ConvertTask.run` — the batch loop over the requested files; the external
  converter plus renderer pair (`convert_one` and `render_pdf`) appears as an
  oracle returning the destination or the raised exception, and the Qt signal
  emissions are collected into an event trace.
-/

namespace MdPdf

/-- Characters of the character class holding a space or a tab, used by the
callout header pattern of `preprocess_obsidian`. -/
def isBlank (c : Char) : Bool := c = ' ' || c = '\t'

/-- ASCII content of the Python regex whitespace class and of `str.strip`
(the program only ever feeds ASCII whitespace to these positions). -/
def isPySpace (c : Char) : Bool :=
  c = ' ' || c = '\t' || c = '\n' || c = '\r' || c = '\x0b' || c = '\x0c'

/-- Python `str.strip`: drop whitespace from both ends. -/
def pyStrip (l : List Char) : List Char :=
  ((l.dropWhile isPySpace).reverse.dropWhile isPySpace).reverse

/-- First replace of `preprocess_obsidian`: every carriage-return line-feed
pair becomes a line feed (left to right, non-overlapping). -/
def replaceCRLF : List Char → List Char
  | [] => []
  | [c] => [c]
  | c1 :: c2 :: r =>
    if c1 = '\r' && c2 = '\n' then '\n' :: replaceCRLF r
    else c1 :: replaceCRLF (c2 :: r)

/-- Second replace: every remaining carriage return becomes a line feed. -/
def replaceCR (l : List Char) : List Char := l.map fun c => if c = '\r' then '\n' else c

def normalizeNewlines (l : List Char) : List Char := replaceCR (replaceCRLF l)

/-- Split on the line feed character; the inverse of `joinLines` on
newline-free lines. -/
def splitLines : List Char → List (List Char)
  | [] => [[]]
  | c :: r =>
    if c = '\n' then [] :: splitLines r
    else
      match splitLines r with
      | [] => [[c]]
      | h :: t => (c :: h) :: t

def joinLines : List (List Char) → List Char
  | [] => []
  | [l] => l
  | l :: ls => l ++ '\n' :: joinLines ls

/-- The callout header pattern applied to one line: optional blanks, a
greater-than sign, optional blanks, an opening bracket with a bang, one or
more letters, a closing bracket, optional blanks, then the captured title
(the rest of the line).  Every quantifier here is forced, so this maximal
munch parse is the regex match. -/
def matchCalloutHeader (l : List Char) : Option (List Char × List Char) :=
  match l.dropWhile isBlank with
  | [] => none
  | c1 :: r2 =>
    if c1 = '>' then
      match r2.dropWhile isBlank with
      | c2 :: c3 :: r4 =>
        if c2 = '[' ∧ c3 = '!' then
          let ty := r4.takeWhile Char.isAlpha
          match r4.dropWhile Char.isAlpha with
          | c4 :: r6 => if c4 = ']' ∧ ty ≠ [] then some (ty, r6.dropWhile isBlank) else none
          | [] => none
        else none
      | _ => none
    else none

/-- `repl_callout` from the source: lowercase the kind, strip the title, and
produce the marker line, omitting the title attribute when the stripped
title is empty. -/
def repl_callout (ty title0 : List Char) : List Char :=
  let t := ty.map Char.toLower
  let title := pyStrip title0
  if title.isEmpty then
    "> <!--callout:".data ++ t ++ "-->".data
  else
    "> <!--callout:".data ++ t ++ " title=\"".data ++ title ++ "\"-->".data

/-- Action of the multiline substitution on one line. -/
def processLine (l : List Char) : List Char :=
  match matchCalloutHeader l with
  | some (ty, title) => repl_callout ty title
  | none => l

/-- `preprocess_obsidian`: normalize line endings, then rewrite each callout
header line. -/
def preprocessList (l : List Char) : List Char :=
  joinLines ((splitLines (normalizeNewlines l)).map processLine)

def preprocess_obsidian (s : String) : String := ⟨preprocessList s.data⟩

/-! ## The callout post-processor (`transform_callouts`) -/

/-- Leftmost occurrence of `pat`: the text strictly before it and the text
strictly after it. -/
def findFirst (pat : List Char) : List Char → Option (List Char × List Char)
  | [] => if pat.isEmpty then some ([], []) else none
  | c :: r =>
    if pat.isPrefixOf (c :: r) then some ([], (c :: r).drop pat.length)
    else
      match findFirst pat r with
      | some (p, q) => some (c :: p, q)
      | none => none

def occursIn (pat s : List Char) : Bool := (findFirst pat s).isSome

/-- Match a literal at the head, returning the rest. -/
def lit (pat l : List Char) : Option (List Char) :=
  if pat.isPrefixOf l then some (l.drop pat.length) else none

/-- The lowercase letter class of the marker search pattern. -/
def isLowerAZ (c : Char) : Bool := 'a' ≤ c && c ≤ 'z'

/-- The marker search pattern tried at the head of `l`: comment opener,
whitespace, the callout keyword with a colon, one or more lowercase letters,
an optional group of whitespace plus a quoted title, whitespace, comment
closer.  The regex first tries to take the optional group and falls back to
skipping it (no other backtracking can succeed: every run is followed by a
character its class excludes). -/
def markerAt (l : List Char) : Option (List Char × List Char) :=
  match lit "<!--".data l with
  | none => none
  | some r1 =>
    match lit "callout:".data (r1.dropWhile isPySpace) with
    | none => none
    | some r2 =>
      let k := r2.takeWhile isLowerAZ
      let r3 := r2.dropWhile isLowerAZ
      if k.isEmpty then none
      else
        let ws := r3.takeWhile isPySpace
        let r4 := r3.dropWhile isPySpace
        let viaTitle : Option (List Char × List Char) :=
          if ws.isEmpty then none
          else
            match lit "title=\"".data r4 with
            | none => none
            | some r5 =>
              let t := r5.takeWhile (fun c => !(c = '"'))
              match r5.dropWhile (fun c => !(c = '"')) with
              | [] => none
              | q :: r6 =>
                if q = '"' then
                  match lit "-->".data (r6.dropWhile isPySpace) with
                  | some _ => some (k, t)
                  | none => none
                else none
        match viaTitle with
        | some res => some res
        | none =>
          match lit "-->".data r4 with
          | some _ => some (k, [])
          | none => none

/-- `re.search` of the marker pattern: first position at which it matches.
A missing title group and an empty title both come out as the empty list,
exactly as `cm.group(2) or ""` collapses them. -/
def searchMarker : List Char → Option (List Char × List Char)
  | [] => none
  | c :: r =>
    match markerAt (c :: r) with
    | some res => some res
    | none => searchMarker r

/-- The removal pattern tried at the head: comment opener, whitespace, the
callout keyword, a run free of greater-than signs that must end in two
dashes, the closing sign, then trailing whitespace; yields the rest after
the removed span. -/
def removalAt (l : List Char) : Option (List Char) :=
  match lit "<!--".data l with
  | none => none
  | some r1 =>
    match lit "callout:".data (r1.dropWhile isPySpace) with
    | none => none
    | some r2 =>
      let m := r2.takeWhile (fun c => !(c = '>'))
      match r2.dropWhile (fun c => !(c = '>')) with
      | [] => none
      | g :: r3 =>
        if g = '>' ∧ "--".data.isSuffixOf m then some (r3.dropWhile isPySpace) else none

/-- `re.sub(..., "", inner, count=1)` with the removal pattern: delete the
first occurrence, keep everything else. -/
def removeMarker : List Char → List Char
  | [] => []
  | c :: r =>
    match removalAt (c :: r) with
    | some rest => rest
    | none => c :: removeMarker r

/-- The badge span built from kind and title. -/
def badgeFor (k t : List Char) : List Char :=
  if t.isEmpty then "<span data-callout=\"".data ++ k ++ "\"></span>".data
  else "<span data-callout=\"".data ++ k ++ "\">".data ++ t ++ "</span>".data

/-- Badge insertion: when the content begins with a paragraph-like open tag
(the anchored pattern `<p`, a run free of greater-than signs, the closing
sign) the badge and a space go right after that tag, otherwise the badge is
prepended to the whole content. -/
def insertBadge (badge inner2 : List Char) : List Char :=
  match inner2 with
  | c1 :: c2 :: r =>
    if c1 = '<' ∧ c2 = 'p' then
      let a := r.takeWhile (fun c => !(c = '>'))
      match r.dropWhile (fun c => !(c = '>')) with
      | g :: rest => if g = '>' then '<' :: 'p' :: (a ++ '>' :: (badge ++ ' ' :: rest)) else badge ++ inner2
      | [] => badge ++ inner2
    else badge ++ inner2
  | _ => badge ++ inner2

def bqOpen : List Char := "<blockquote>".data
def bqClose : List Char := "</blockquote>".data

/-- The replacement function `repl` of `transform_callouts`, applied to the
inner content of one matched blockquote span: no marker leaves the matched
text unchanged, otherwise remove the first marker, build the badge, insert
it, and reassemble the span. -/
def calloutRepl (inner : List Char) : List Char :=
  match searchMarker inner with
  | none => bqOpen ++ inner ++ bqClose
  | some (k, t) => bqOpen ++ insertBadge (badgeFor k t) (removeMarker inner) ++ bqClose

/-- The non-greedy global substitution over blockquote spans: repeatedly take
the leftmost open tag, pair it with the nearest following close tag, replace,
and continue after the match.  The fuel argument only bounds the recursion;
`transformAux_fuel` shows any fuel at least the length of the text computes
the same result, so `transformList` is the total substitution. -/
def transformAux : Nat → List Char → List Char
  | 0, s => s
  | fuel + 1, s =>
    match findFirst bqOpen s with
    | none => s
    | some (pre, rest) =>
      match findFirst bqClose rest with
      | none => s
      | some (inner, rest2) => pre ++ calloutRepl inner ++ transformAux fuel rest2

def transformList (s : List Char) : List Char := transformAux s.length s

def transform_callouts (s : String) : String := ⟨transformList s.data⟩

/-! ## Output path resolution -/

/-- The logical content of a `pathlib.Path`: whether it is anchored at the
root, and its components (parsing drops dot components, so `Path()` is
`⟨false, []⟩`). -/
structure PyPath where
  absolute : Bool
  parts : List String
deriving DecidableEq, Repr

/-- `Path.name`: the final component, empty for an empty path. -/
def PyPath.name (p : PyPath) : String := (p.parts.getLast?).getD ""

/-- `Path.stem` on a file name: cut at the last dot when that dot is neither
the first nor the last character. -/
def pyStem (n : List Char) : List Char :=
  let after := (n.reverse.takeWhile (fun c => !(c = '.'))).length
  if after < n.length then
    let dotIdx := n.length - 1 - after
    if 0 < dotIdx ∧ dotIdx < n.length - 1 then n.take dotIdx else n
  else n

def PyPath.parent (p : PyPath) : PyPath := ⟨p.absolute, p.parts.dropLast⟩

/-- `Path.relative_to`: defined when the base anchors agree and the base
components are a prefix; otherwise `pathlib` raises (modelled as `none`). -/
def relative_to (p base : PyPath) : Option (List String) :=
  if p.absolute = base.absolute ∧ base.parts.isPrefixOf p.parts then
    some (p.parts.drop base.parts.length)
  else none

/-- `ConvertTask._compute_out_path`: the destination file name is the stem
with the pdf extension; with structure preservation and a base root the
relative parent is mirrored under the output root, falling back to the empty
relative path when `relative_to` raises; otherwise flat placement. -/
def compute_out_path (preserve : Bool) (base_root : Option PyPath)
    (out_dir md_path : PyPath) : PyPath :=
  let safe_name : String := ⟨pyStem md_path.name.data⟩ ++ ".pdf"
  match preserve, base_root with
  | true, some b =>
    let rel := (relative_to md_path.parent b).getD []
    ⟨out_dir.absolute, out_dir.parts ++ rel ++ [safe_name]⟩
  | _, _ => ⟨out_dir.absolute, out_dir.parts ++ [safe_name]⟩

/-- Longest common prefix of two component lists. -/
def lcpParts : List String → List String → List String
  | a :: as, b :: bs => if a = b then a :: lcpParts as bs else []
  | _, _ => []

/-- `MainWindow._common_base`: `os.path.commonpath` over the resolved paths
(the longest common component prefix, defined only when all anchors agree),
with every raised error caught and turned into `none`; the empty input
raises. -/
def common_base : List PyPath → Option PyPath
  | [] => none
  | p :: ps =>
    if ps.all (fun q => q.absolute == p.absolute) then
      some ⟨p.absolute, ps.foldl (fun acc q => lcpParts acc q.parts) p.parts⟩
    else none

/-! ## The batch runner (`ConvertTask.run`) -/

structure Outcome where
  src : String
  dest : String
  ok : Bool
  err : String
deriving DecidableEq, Repr

inductive RunEvent where
  | progress (cur total : Nat)
  | message (text : String)
  | done (results : List Outcome)
deriving DecidableEq, Repr

/-- A raised Python exception: its class name and its message. -/
structure PyExc where
  typeName : String
  msg : String
deriving DecidableEq, Repr

/-- The joined output of `traceback.format_exception_only` followed by
`str.strip`: the class name, a colon and the message when the message is
non-empty, the bare class name otherwise. -/
def format_exception_only (e : PyExc) : String :=
  ⟨pyStrip (if e.msg.isEmpty then e.typeName.data else (e.typeName ++ ": " ++ e.msg).data)⟩

/-- The loop of `ConvertTask.run`.  `proc` stands for `convert_one` followed
by `render_pdf` and yields the destination path or the raised exception; the
emitted signals per document (progress, the starting log line, the result
log line) are collected in order, and one outcome is appended per document. -/
def runLoop (proc : String → Except PyExc String) (total : Nat) :
    Nat → List String → List RunEvent × List Outcome
  | _, [] => ([], [])
  | i, p :: ps =>
    let head : List RunEvent × Outcome :=
      match proc p with
      | Except.ok dest =>
        ([RunEvent.progress i total, RunEvent.message ("Конвертация: " ++ p),
          RunEvent.message ("✓ Готово: " ++ dest)],
         ⟨p, dest, true, ""⟩)
      | Except.error e =>
        let err := format_exception_only e
        ([RunEvent.progress i total, RunEvent.message ("Конвертация: " ++ p),
          RunEvent.message ("✗ Ошибка: " ++ p ++ "\n  " ++ err)],
         ⟨p, "", false, err⟩)
    let tail := runLoop proc total (i + 1) ps
    (head.1 ++ tail.1, head.2 :: tail.2)

/-- `ConvertTask.run`: the full emitted event trace, ending in the single
completion event that carries the aggregated results. -/
def ConvertTask_run (proc : String → Except PyExc String) (files : List String) :
    List RunEvent :=
  let r := runLoop proc files.length 1 files
  r.1 ++ [RunEvent.done r.2]

/-- The aggregated result list of one run. -/
def run_results (proc : String → Except PyExc String) (files : List String) :
    List Outcome :=
  (runLoop proc files.length 1 files).2

/-- Ancestor-or-self on paths: same anchor and a component prefix. -/
def isAncestorOrSelf (anc p : PyPath) : Bool :=
  anc.absolute == p.absolute && anc.parts.isPrefixOf p.parts

/-- The index of a progress event, when the event is one. -/
def progressOf : RunEvent → Option (Nat × Nat)
  | RunEvent.progress c t => some (c, t)
  | _ => none

def isDone : RunEvent → Bool
  | RunEvent.done _ => true
  | _ => false

/-- A stub document processor for witnesses: the second document raises, the
others succeed. -/
def procW : String → Except PyExc String := fun p =>
  if p = "b.md" then Except.error ⟨"OSError", "boom"⟩ else Except.ok (p ++ ".pdf")

/-! ## Helper lemmas: character classes and stripping -/

theorem isPySpace_of_isBlank {c : Char} (h : isBlank c = true) : isPySpace c = true := by
  rcases Bool.or_eq_true_iff.mp h with h1 | h1 <;>
    simp only [isPySpace, h1, Bool.or_eq_true_iff, decide_eq_true_eq] <;> tauto

theorem pyStrip_append_space {w l : List Char} (h : ∀ c ∈ w, isPySpace c = true) :
    pyStrip (w ++ l) = pyStrip l := by
  unfold pyStrip
  rw [List.dropWhile_append_of_pos h]

theorem pyStrip_append_blank {w l : List Char} (h : ∀ c ∈ w, isBlank c = true) :
    pyStrip (w ++ l) = pyStrip l :=
  pyStrip_append_space fun c hc => isPySpace_of_isBlank (h c hc)

theorem pyStrip_dropWhile_blank (l : List Char) :
    pyStrip (l.dropWhile isBlank) = pyStrip l := by
  conv_rhs => rw [← List.takeWhile_append_dropWhile isBlank l]
  exact (pyStrip_append_blank fun c hc => List.mem_takeWhile_imp hc).symm

/-! ## Characterization of the callout header pattern (claim C4) -/

/-- Declarative form of the callout header pattern: optional blanks, the
quote sign, optional blanks, the bracketed bang tag around one or more
letters, optional blanks, then the rest of the line as the title. -/
def CalloutDecomp (l ty title : List Char) : Prop :=
  ∃ w1 w2 w3 : List Char,
    (∀ c ∈ w1, isBlank c = true) ∧ (∀ c ∈ w2, isBlank c = true) ∧
    (∀ c ∈ w3, isBlank c = true) ∧
    ty ≠ [] ∧ (∀ c ∈ ty, c.isAlpha = true) ∧
    l = w1 ++ '>' :: (w2 ++ '[' :: '!' :: (ty ++ ']' :: (w3 ++ title)))

theorem matchCalloutHeader_some {l ty t : List Char}
    (h : matchCalloutHeader l = some (ty, t)) : CalloutDecomp l ty t := by
  unfold matchCalloutHeader at h
  cases hd1 : l.dropWhile isBlank with
  | nil => rw [hd1] at h; exact absurd h (by simp)
  | cons c1 r2 =>
    rw [hd1] at h
    simp only [] at h
    by_cases hc1 : c1 = '>'
    · rw [if_pos hc1] at h
      cases hd2 : r2.dropWhile isBlank with
      | nil => rw [hd2] at h; exact absurd h (by simp)
      | cons c2 rest2 =>
        cases rest2 with
        | nil => rw [hd2] at h; exact absurd h (by simp)
        | cons c3 r4 =>
          rw [hd2] at h
          simp only [] at h
          by_cases hc23 : c2 = '[' ∧ c3 = '!'
          · rw [if_pos hc23] at h
            cases hd3 : r4.dropWhile Char.isAlpha with
            | nil => rw [hd3] at h; exact absurd h (by simp)
            | cons c4 r6 =>
              rw [hd3] at h
              simp only [] at h
              by_cases hc4 : c4 = ']' ∧ r4.takeWhile Char.isAlpha ≠ []
              · rw [if_pos hc4] at h
                obtain ⟨hty, ht⟩ : r4.takeWhile Char.isAlpha = ty ∧ r6.dropWhile isBlank = t := by
                  have := Option.some.inj h
                  exact ⟨congrArg Prod.fst this, congrArg Prod.snd this⟩
                refine ⟨l.takeWhile isBlank, r2.takeWhile isBlank, r6.takeWhile isBlank,
                  fun c hc => List.mem_takeWhile_imp hc,
                  fun c hc => List.mem_takeWhile_imp hc,
                  fun c hc => List.mem_takeWhile_imp hc,
                  by rw [← hty]; exact hc4.2,
                  by rw [← hty]; exact fun c hc => List.mem_takeWhile_imp hc, ?_⟩
                have e1 : l = l.takeWhile isBlank ++ (c1 :: r2) := by
                  rw [← hd1, List.takeWhile_append_dropWhile]
                have e2 : r2 = r2.takeWhile isBlank ++ (c2 :: c3 :: r4) := by
                  rw [← hd2, List.takeWhile_append_dropWhile]
                have e3 : r4 = ty ++ (c4 :: r6) := by
                  rw [← hty, ← hd3, List.takeWhile_append_dropWhile]
                have e4 : r6 = r6.takeWhile isBlank ++ t := by
                  rw [← ht, List.takeWhile_append_dropWhile]
                conv_lhs => rw [e1, hc1, e2, hc23.1, hc23.2, e3, hc4.1, e4]
              · rw [if_neg hc4] at h; exact absurd h (by simp)
          · rw [if_neg hc23] at h; exact absurd h (by simp)
    · rw [if_neg hc1] at h; exact absurd h (by simp)

theorem matchCalloutHeader_of_decomp {l ty title : List Char}
    (h : CalloutDecomp l ty title) :
    ∃ t, matchCalloutHeader l = some (ty, t) ∧ pyStrip t = pyStrip title := by
  obtain ⟨w1, w2, w3, hw1, hw2, hw3, htyne, htyal, hl⟩ := h
  have hd1 : l.dropWhile isBlank = '>' :: (w2 ++ '[' :: '!' :: (ty ++ ']' :: (w3 ++ title))) := by
    rw [hl, List.dropWhile_append_of_pos hw1, List.dropWhile_cons_of_neg (by decide)]
  have hd2 : (w2 ++ '[' :: '!' :: (ty ++ ']' :: (w3 ++ title))).dropWhile isBlank
      = '[' :: '!' :: (ty ++ ']' :: (w3 ++ title)) := by
    rw [List.dropWhile_append_of_pos hw2, List.dropWhile_cons_of_neg (by decide)]
  have hty : (ty ++ ']' :: (w3 ++ title)).takeWhile Char.isAlpha = ty := by
    rw [List.takeWhile_append_of_pos htyal, List.takeWhile_cons_of_neg (by decide),
      List.append_nil]
  have hdty : (ty ++ ']' :: (w3 ++ title)).dropWhile Char.isAlpha = ']' :: (w3 ++ title) := by
    rw [List.dropWhile_append_of_pos htyal, List.dropWhile_cons_of_neg (by decide)]
  refine ⟨(w3 ++ title).dropWhile isBlank, ?_, ?_⟩
  · simp only [matchCalloutHeader, hd1, hd2, hdty, hty]
    simp [htyne]
  · rw [pyStrip_dropWhile_blank, pyStrip_append_blank hw3]

/-! ## Idempotence machinery (claim C7) -/

theorem replaceCRLF_of_noCR : ∀ l : List Char, '\r' ∉ l → replaceCRLF l = l
  | [], _ => rfl
  | [_], _ => rfl
  | c1 :: c2 :: r, h => by
    have h1 : c1 ≠ '\r' := fun he => h (by simp [he])
    unfold replaceCRLF
    rw [if_neg (by simp [h1])]
    have : '\r' ∉ c2 :: r := fun hm => h (List.mem_cons_of_mem _ hm)
    rw [replaceCRLF_of_noCR (c2 :: r) this]

theorem noCR_replaceCR (l : List Char) : '\r' ∉ replaceCR l := by
  intro h
  obtain ⟨c, _, hc⟩ := List.mem_map.mp h
  by_cases hc' : c = '\r' <;> simp [hc'] at hc

theorem replaceCR_of_noCR {l : List Char} (h : '\r' ∉ l) : replaceCR l = l := by
  unfold replaceCR
  rw [List.map_congr_left fun c hc =>
    if_neg (fun he => h (by rw [← he]; exact hc) : ¬ c = '\r'), List.map_id']

theorem noCR_normalizeNewlines (l : List Char) : '\r' ∉ normalizeNewlines l :=
  noCR_replaceCR _

theorem normalizeNewlines_of_noCR {l : List Char} (h : '\r' ∉ l) :
    normalizeNewlines l = l := by
  unfold normalizeNewlines
  rw [replaceCRLF_of_noCR l h, replaceCR_of_noCR h]

theorem splitLines_ne_nil : ∀ l : List Char, splitLines l ≠ []
  | [] => by simp [splitLines]
  | c :: r => by
    unfold splitLines
    by_cases hc : c = '\n'
    · simp [hc]
    · rw [if_neg hc]
      cases hs : splitLines r <;> simp

theorem mem_splitLines_noLF : ∀ (l : List Char) (x : List Char), x ∈ splitLines l → '\n' ∉ x
  | [], x, hx => by
    simp [splitLines] at hx
    simp [hx]
  | c :: r, x, hx => by
    unfold splitLines at hx
    by_cases hc : c = '\n'
    · rw [if_pos hc] at hx
      rcases List.mem_cons.mp hx with h | h
      · simp [h]
      · exact mem_splitLines_noLF r x h
    · rw [if_neg hc] at hx
      cases hs : splitLines r with
      | nil => exact absurd hs (splitLines_ne_nil r)
      | cons h0 t0 =>
        rw [hs] at hx
        rcases List.mem_cons.mp hx with h | h
        · subst h
          intro hm
          rcases List.mem_cons.mp hm with h | h
          · exact hc h.symm
          · exact mem_splitLines_noLF r h0 (hs ▸ List.mem_cons_self _ _) h
        · exact mem_splitLines_noLF r x (hs ▸ List.mem_cons_of_mem _ h)

theorem mem_splitLines_subset :
    ∀ (l : List Char) (x : List Char), x ∈ splitLines l → ∀ c ∈ x, c ∈ l
  | [], x, hx => by
    simp [splitLines] at hx
    simp [hx]
  | c :: r, x, hx => by
    unfold splitLines at hx
    by_cases hc : c = '\n'
    · rw [if_pos hc] at hx
      rcases List.mem_cons.mp hx with h | h
      · simp [h]
      · exact fun d hd => List.mem_cons_of_mem _ (mem_splitLines_subset r x h d hd)
    · rw [if_neg hc] at hx
      cases hs : splitLines r with
      | nil => exact absurd hs (splitLines_ne_nil r)
      | cons h0 t0 =>
        rw [hs] at hx
        rcases List.mem_cons.mp hx with h | h
        · subst h
          intro d hd
          rcases List.mem_cons.mp hd with h | h
          · simp [h]
          · exact List.mem_cons_of_mem _
              (mem_splitLines_subset r h0 (by rw [hs]; exact List.mem_cons_self _ _) d h)
        · exact fun d hd => List.mem_cons_of_mem _
            (mem_splitLines_subset r x (by rw [hs]; exact List.mem_cons_of_mem _ h) d hd)

theorem splitLines_of_noLF : ∀ l : List Char, '\n' ∉ l → splitLines l = [l]
  | [], _ => rfl
  | c :: r, h => by
    have hc : ¬ c = '\n' := fun he => h (by simp [he])
    rw [splitLines, if_neg hc, splitLines_of_noLF r fun hm => h (List.mem_cons_of_mem _ hm)]

theorem splitLines_append_LF :
    ∀ (l x : List Char), '\n' ∉ l → splitLines (l ++ '\n' :: x) = l :: splitLines x
  | [], x, _ => by simp [splitLines]
  | c :: r, x, h => by
    have hc : ¬ c = '\n' := fun he => h (by simp [he])
    have hr := splitLines_append_LF r x fun hm => h (List.mem_cons_of_mem _ hm)
    show splitLines (c :: (r ++ '\n' :: x)) = (c :: r) :: splitLines x
    rw [splitLines, if_neg hc, hr]

theorem splitLines_joinLines :
    ∀ ls : List (List Char), (∀ l ∈ ls, '\n' ∉ l) → ls ≠ [] → splitLines (joinLines ls) = ls
  | [], _, hne => absurd rfl hne
  | [l], h, _ => by
    unfold joinLines
    exact splitLines_of_noLF l (h l (List.mem_cons_self _ _))
  | l :: l2 :: ls, h, _ => by
    show splitLines (l ++ '\n' :: joinLines (l2 :: ls)) = l :: l2 :: ls
    rw [splitLines_append_LF l _ (h l (List.mem_cons_self _ _)),
      splitLines_joinLines (l2 :: ls) (fun x hx => h x (List.mem_cons_of_mem _ hx)) (by simp)]

theorem pyStrip_subset {l : List Char} {c : Char} (hc : c ∈ pyStrip l) : c ∈ l := by
  unfold pyStrip at hc
  rw [List.mem_reverse] at hc
  have h1 := (List.dropWhile_sublist isPySpace).mem hc
  rw [List.mem_reverse] at h1
  exact (List.dropWhile_sublist isPySpace).mem h1

theorem toNat_ofNatAux (n : Nat) (h : n.isValidChar) : (Char.ofNatAux n h).toNat = n := rfl

theorem toLower_ne_ctrl {c : Char} (h : c.isAlpha = true) :
    c.toLower ≠ '\n' ∧ c.toLower ≠ '\r' := by
  simp only [Char.toLower]
  by_cases hc : c.toNat ≥ 65 ∧ c.toNat ≤ 90
  · rw [if_pos hc]
    have hv : (c.toNat + 32).isValidChar := Or.inl (by omega)
    have key : ∀ d : Char, d.toNat < 65 → Char.ofNat (c.toNat + 32) ≠ d := by
      intro d hd he
      have hn := congrArg Char.toNat he
      rw [Char.ofNat, dif_pos hv, toNat_ofNatAux] at hn
      omega
    exact ⟨key '\n' (by decide), key '\r' (by decide)⟩
  · rw [if_neg hc]
    constructor <;> intro he <;> rw [he] at h <;> exact absurd h (by decide)

theorem repl_callout_shape (ty title : List Char) :
    ∃ rest, repl_callout ty title = '>' :: ' ' :: '<' :: rest := by
  have hx : "> <!--callout:".data = '>' :: ' ' :: '<' :: "!--callout:".data := rfl
  unfold repl_callout
  by_cases h : (pyStrip title).isEmpty
  · rw [if_pos h, hx]
    exact ⟨"!--callout:".data ++ ty.map Char.toLower ++ "-->".data, by simp⟩
  · rw [if_neg h, hx]
    exact ⟨"!--callout:".data ++ ty.map Char.toLower ++ " title=\"".data ++
      pyStrip title ++ "\"-->".data, by simp⟩

theorem matchCalloutHeader_lt_none (rest : List Char) :
    matchCalloutHeader ('>' :: ' ' :: '<' :: rest) = none := by
  have h1 : ('>' :: ' ' :: '<' :: rest).dropWhile isBlank = '>' :: (' ' :: '<' :: rest) :=
    List.dropWhile_cons_of_neg (by decide)
  have h2 : (' ' :: '<' :: rest).dropWhile isBlank = '<' :: rest := by
    rw [List.dropWhile_cons_of_pos (by decide), List.dropWhile_cons_of_neg (by decide)]
  unfold matchCalloutHeader
  rw [h1]
  simp only []
  rw [if_pos trivial, h2]
  cases rest with
  | nil => rfl
  | cons c3 r4 =>
    simp only []
    rw [if_neg fun hc => absurd hc.1 (by decide)]

theorem matchCalloutHeader_repl_none (ty title : List Char) :
    matchCalloutHeader (repl_callout ty title) = none := by
  obtain ⟨rest, hr⟩ := repl_callout_shape ty title
  rw [hr]
  exact matchCalloutHeader_lt_none rest

theorem processLine_eq_of_match {l ty t : List Char}
    (hm : matchCalloutHeader l = some (ty, t)) : processLine l = repl_callout ty t := by
  unfold processLine
  rw [hm]

theorem processLine_eq_of_none {l : List Char} (hm : matchCalloutHeader l = none) :
    processLine l = l := by
  unfold processLine
  rw [hm]

theorem processLine_idem (l : List Char) : processLine (processLine l) = processLine l := by
  cases hm : matchCalloutHeader l with
  | none => rw [processLine_eq_of_none hm, processLine_eq_of_none hm]
  | some p =>
    obtain ⟨ty, t⟩ := p
    rw [processLine_eq_of_match hm,
      processLine_eq_of_none (matchCalloutHeader_repl_none ty t)]

theorem repl_callout_mem {c : Char} {ty t : List Char} (hmem : c ∈ repl_callout ty t) :
    c ∈ "> <!--callout:".data ∨ c ∈ "-->".data ∨ c ∈ " title=\"".data ∨
    c ∈ "\"-->".data ∨ (∃ d, d ∈ ty ∧ d.toLower = c) ∨ c ∈ pyStrip t := by
  unfold repl_callout at hmem
  by_cases hre : (pyStrip t).isEmpty
  · rw [if_pos hre] at hmem
    rcases List.mem_append.mp hmem with hmem2 | h
    · rcases List.mem_append.mp hmem2 with h | h
      · exact Or.inl h
      · obtain ⟨d, hd, he⟩ := List.mem_map.mp h
        exact Or.inr (Or.inr (Or.inr (Or.inr (Or.inl ⟨d, hd, he⟩))))
    · exact Or.inr (Or.inl h)
  · rw [if_neg hre] at hmem
    rcases List.mem_append.mp hmem with hmem2 | h
    · rcases List.mem_append.mp hmem2 with hmem3 | h
      · rcases List.mem_append.mp hmem3 with hmem4 | h
        · rcases List.mem_append.mp hmem4 with h | h
          · exact Or.inl h
          · obtain ⟨d, hd, he⟩ := List.mem_map.mp h
            exact Or.inr (Or.inr (Or.inr (Or.inr (Or.inl ⟨d, hd, he⟩))))
        · exact Or.inr (Or.inr (Or.inl h))
      · exact Or.inr (Or.inr (Or.inr (Or.inr (Or.inr h))))
    · exact Or.inr (Or.inr (Or.inr (Or.inl h)))

theorem processLine_noLF_noCR {l : List Char} (hLF : '\n' ∉ l) (hCR : '\r' ∉ l) :
    '\n' ∉ processLine l ∧ '\r' ∉ processLine l := by
  cases hm : matchCalloutHeader l with
  | none => rw [processLine_eq_of_none hm]; exact ⟨hLF, hCR⟩
  | some p =>
    obtain ⟨ty, t⟩ := p
    rw [processLine_eq_of_match hm]
    obtain ⟨w1, w2, w3, hw1, hw2, hw3, htyne, htyal, hl⟩ := matchCalloutHeader_some hm
    have htsub : ∀ c ∈ t, c ∈ l := by
      intro c hc
      rw [hl]
      simp [List.mem_append, List.mem_cons, hc]
    have key : ∀ c, c ∈ repl_callout ty t → c ≠ '\n' ∧ c ≠ '\r' := by
      intro c hcm
      rcases repl_callout_mem hcm with h | h | h | h | ⟨d, hd, he⟩ | h
      · exact ⟨fun he => by rw [he] at h; exact absurd h (by decide),
          fun he => by rw [he] at h; exact absurd h (by decide)⟩
      · exact ⟨fun he => by rw [he] at h; exact absurd h (by decide),
          fun he => by rw [he] at h; exact absurd h (by decide)⟩
      · exact ⟨fun he => by rw [he] at h; exact absurd h (by decide),
          fun he => by rw [he] at h; exact absurd h (by decide)⟩
      · exact ⟨fun he => by rw [he] at h; exact absurd h (by decide),
          fun he => by rw [he] at h; exact absurd h (by decide)⟩
      · rw [← he]
        exact toLower_ne_ctrl (htyal d hd)
      · have hcl : c ∈ l := htsub c (pyStrip_subset h)
        exact ⟨fun he => hLF (by rw [← he]; exact hcl),
          fun he => hCR (by rw [← he]; exact hcl)⟩
    exact ⟨fun hmem => (key _ hmem).1 rfl, fun hmem => (key _ hmem).2 rfl⟩

theorem joinLines_mem : ∀ {ls : List (List Char)} {c : Char}, c ∈ joinLines ls →
    c = '\n' ∨ ∃ x ∈ ls, c ∈ x
  | [], c, h => by simp [joinLines] at h
  | [l], c, h => by
    right
    exact ⟨l, by simp, by simpa [joinLines] using h⟩
  | l :: l2 :: ls, c, h => by
    rw [show joinLines (l :: l2 :: ls) = l ++ '\n' :: joinLines (l2 :: ls) from rfl] at h
    rcases List.mem_append.mp h with h | h
    · right; exact ⟨l, by simp, h⟩
    · rcases List.mem_cons.mp h with h | h
      · left; exact h
      · rcases joinLines_mem h with h | ⟨x, hx, hcx⟩
        · left; exact h
        · right; exact ⟨x, List.mem_cons_of_mem _ hx, hcx⟩

theorem preprocessList_idem (l : List Char) :
    preprocessList (preprocessList l) = preprocessList l := by
  have hno : ∀ x ∈ splitLines (normalizeNewlines l), '\n' ∉ x :=
    fun x hx => mem_splitLines_noLF _ x hx
  have hnoCR : ∀ x ∈ splitLines (normalizeNewlines l), '\r' ∉ x := fun x hx hc =>
    noCR_normalizeNewlines l (mem_splitLines_subset _ x hx '\r' hc)
  have hmapLF : ∀ x ∈ (splitLines (normalizeNewlines l)).map processLine, '\n' ∉ x := by
    intro x hx
    obtain ⟨y, hy, rfl⟩ := List.mem_map.mp hx
    exact (processLine_noLF_noCR (hno y hy) (hnoCR y hy)).1
  have hmapCR : ∀ x ∈ (splitLines (normalizeNewlines l)).map processLine, '\r' ∉ x := by
    intro x hx
    obtain ⟨y, hy, rfl⟩ := List.mem_map.mp hx
    exact (processLine_noLF_noCR (hno y hy) (hnoCR y hy)).2
  have hmapne : (splitLines (normalizeNewlines l)).map processLine ≠ [] := by
    intro hcon
    exact splitLines_ne_nil (normalizeNewlines l) (List.map_eq_nil_iff.mp hcon)
  have hnoCRP : '\r' ∉ preprocessList l := by
    intro hc
    rcases joinLines_mem hc with h | ⟨x, hx, hcx⟩
    · exact absurd h (by decide)
    · exact hmapCR x hx hcx
  calc preprocessList (preprocessList l)
      = joinLines ((splitLines (normalizeNewlines (preprocessList l))).map processLine) := rfl
    _ = joinLines ((splitLines (preprocessList l)).map processLine) := by
        rw [normalizeNewlines_of_noCR hnoCRP]
    _ = joinLines ((((splitLines (normalizeNewlines l)).map processLine).map processLine)) := by
        rw [show preprocessList l
            = joinLines ((splitLines (normalizeNewlines l)).map processLine) from rfl,
          splitLines_joinLines _ hmapLF hmapne]
    _ = joinLines ((splitLines (normalizeNewlines l)).map processLine) := by
        rw [List.map_map]
        exact congrArg joinLines (List.map_congr_left fun x _ => processLine_idem x)
    _ = preprocessList l := rfl

/-! ## Claim theorems for the preprocessor -/

/-- C4: for every input string the preprocessor first normalizes all line
endings to the line feed and then acts linewise: every line admitting the
callout header decomposition (blockquote marker, optional whitespace, a
bracketed bang tag with a one-or-more-letter identifier, optional trailing
title) is rewritten to the blockquote marker line encoding the lowercased
kind and, when the trimmed title is non-empty, the trimmed title — omitting
the title attribute entirely when the trimmed title is empty — while every
other line passes through unchanged. -/
theorem C4_preprocess_linewise (s : String) :
    preprocess_obsidian s =
      ⟨joinLines ((splitLines (normalizeNewlines s.data)).map processLine)⟩ ∧
    (∀ l ty title, CalloutDecomp l ty title →
      processLine l =
        (if (pyStrip title).isEmpty then
          "> <!--callout:".data ++ ty.map Char.toLower ++ "-->".data
        else
          "> <!--callout:".data ++ ty.map Char.toLower ++ " title=\"".data ++
            pyStrip title ++ "\"-->".data)) ∧
    (∀ l, (¬ ∃ ty title, CalloutDecomp l ty title) → processLine l = l) := by
  refine ⟨rfl, ?_, ?_⟩
  · intro l ty title hdec
    obtain ⟨t, hm, hstrip⟩ := matchCalloutHeader_of_decomp hdec
    rw [processLine_eq_of_match hm]
    unfold repl_callout
    rw [hstrip]
  · intro l hno
    cases hm : matchCalloutHeader l with
    | none => exact processLine_eq_of_none hm
    | some p =>
      obtain ⟨ty, t⟩ := p
      exact absurd ⟨ty, t, matchCalloutHeader_some hm⟩ hno

/-- Witness for C4: the spec example header line matches the decomposition and
is rewritten to the titled marker line. -/
theorem C4_preprocess_linewise_witness :
    CalloutDecomp "> [!tip] Hello".data "tip".data " Hello".data ∧
    processLine "> [!tip] Hello".data =
      (if (pyStrip " Hello".data).isEmpty then
        "> <!--callout:".data ++ "tip".data.map Char.toLower ++ "-->".data
      else
        "> <!--callout:".data ++ "tip".data.map Char.toLower ++ " title=\"".data ++
          pyStrip " Hello".data ++ "\"-->".data) := by
  have hdec : CalloutDecomp "> [!tip] Hello".data "tip".data " Hello".data :=
    ⟨[], [' '], [], by decide, by decide, by decide, by decide, by decide, by decide⟩
  exact ⟨hdec, (C4_preprocess_linewise "").2.1 _ _ _ hdec⟩

/-- C7: for every input string, applying the preprocessor a second time
returns the first result unchanged — the normalized output holds no carriage
returns and a rewritten marker line no longer matches the header pattern, so
`preprocess (preprocess x) = preprocess x`. -/
theorem C7_preprocess_idempotent (s : String) :
    preprocess_obsidian (preprocess_obsidian s) = preprocess_obsidian s := by
  show (⟨preprocessList (String.mk (preprocessList s.data)).data⟩ : String)
      = ⟨preprocessList s.data⟩
  rw [show (String.mk (preprocessList s.data)).data = preprocessList s.data from rfl,
    preprocessList_idem]

/-! ## Structure of the blockquote scanner -/

theorem findFirst_some_decomp {pat : List Char} :
    ∀ {s p q : List Char}, findFirst pat s = some (p, q) → s = p ++ pat ++ q
  | [], p, q, h => by
    unfold findFirst at h
    by_cases hp : pat.isEmpty
    · rw [if_pos hp] at h
      simp only [Option.some.injEq, Prod.mk.injEq] at h
      rw [← h.1, ← h.2, List.isEmpty_iff.mp hp]
      rfl
    · rw [if_neg hp] at h
      exact absurd h (by simp)
  | c :: r, p, q, h => by
    unfold findFirst at h
    by_cases hp : pat.isPrefixOf (c :: r)
    · rw [if_pos hp] at h
      simp only [Option.some.injEq, Prod.mk.injEq] at h
      obtain ⟨t, ht⟩ := List.isPrefixOf_iff_prefix.mp hp
      rw [← h.1, ← h.2, ← ht, List.drop_left]
      rfl
    · rw [if_neg hp] at h
      cases hf : findFirst pat r with
      | none => rw [hf] at h; exact absurd h (by simp)
      | some pq =>
        obtain ⟨p1, q1⟩ := pq
        rw [hf] at h
        simp only [Option.some.injEq, Prod.mk.injEq] at h
        have hr := findFirst_some_decomp hf
        rw [← h.1, ← h.2]
        simp [hr]

theorem findFirst_some_length {pat s p q : List Char}
    (h : findFirst pat s = some (p, q)) :
    s.length = p.length + pat.length + q.length := by
  rw [findFirst_some_decomp h]
  simp [List.length_append]
  omega

theorem findFirst_cons_none {pat : List Char} {c : Char} {r : List Char}
    (h : findFirst pat (c :: r) = none) : findFirst pat r = none := by
  unfold findFirst at h
  by_cases hp : pat.isPrefixOf (c :: r)
  · rw [if_pos hp] at h
    exact absurd h (by simp)
  · rw [if_neg hp] at h
    cases hf : findFirst pat r with
    | none => rfl
    | some pq =>
      obtain ⟨p1, q1⟩ := pq
      rw [hf] at h
      exact absurd h (by simp)

theorem findFirst_none_no_occur {pat : List Char} :
    ∀ {s : List Char}, findFirst pat s = none → ∀ i, ¬ pat.isPrefixOf (s.drop i) = true
  | [], h, i => by
    unfold findFirst at h
    by_cases hp : pat.isEmpty
    · rw [if_pos hp] at h
      exact absurd h (by simp)
    · rw [List.drop_nil]
      intro hcon
      obtain ⟨t, ht⟩ := List.isPrefixOf_iff_prefix.mp hcon
      rw [List.isEmpty_iff] at hp
      exact hp (by cases pat <;> simp_all)
  | c :: r, h, i => by
    cases i with
    | zero =>
      intro hcon
      unfold findFirst at h
      rw [if_pos (by simpa using hcon)] at h
      exact absurd h (by simp)
    | succ j =>
      rw [List.drop_succ_cons]
      exact findFirst_none_no_occur (findFirst_cons_none h) j

theorem findFirst_self {pat x : List Char} (hne : pat ≠ []) :
    findFirst pat (pat ++ x) = some ([], x) := by
  cases hpe : pat with
  | nil => exact absurd hpe hne
  | cons pc pr =>
    show findFirst (pc :: pr) (pc :: (pr ++ x)) = some ([], x)
    unfold findFirst
    rw [if_pos (List.isPrefixOf_iff_prefix.mpr ⟨x, by simp⟩)]
    have hd : (pc :: (pr ++ x)).drop (pc :: pr).length = x := by
      rw [show pc :: (pr ++ x) = (pc :: pr) ++ x from rfl, List.drop_left]
    rw [hd]

theorem findFirst_append_pat {pat : List Char} (hne : pat ≠ [])
    (hbf : ∀ k, 0 < k → k < pat.length → pat.drop k ≠ pat.take (pat.length - k)) :
    ∀ {a : List Char} (b : List Char), findFirst pat a = none →
      findFirst pat (a ++ pat ++ b) = some (a, b)
  | [], b, _ => by
    rw [List.nil_append]
    exact findFirst_self hne
  | c :: a1, b, hnone => by
    have hrec := findFirst_append_pat hne hbf b (findFirst_cons_none hnone)
    have hshape : (c :: a1) ++ pat ++ b = c :: (a1 ++ pat ++ b) := by simp
    have hpre : ¬ pat.isPrefixOf (c :: (a1 ++ pat ++ b)) = true := by
      intro hcon
      obtain ⟨t, ht⟩ := List.isPrefixOf_iff_prefix.mp hcon
      by_cases hlen : pat.length ≤ (c :: a1).length
      · have htake : pat = (c :: (a1 ++ pat ++ b)).take pat.length :=
          List.prefix_iff_eq_take.mp ⟨t, ht⟩
        have htake2 : (c :: (a1 ++ pat ++ b)).take pat.length = (c :: a1).take pat.length := by
          rw [show c :: (a1 ++ pat ++ b) = (c :: a1) ++ (pat ++ b) by simp,
            List.take_append_eq_append_take, Nat.sub_eq_zero_of_le hlen]
          simp
        have hpfx : pat.isPrefixOf ((c :: a1).drop 0) = true := by
          rw [List.drop_zero]
          exact List.isPrefixOf_iff_prefix.mpr
            (htake ▸ htake2 ▸ List.take_prefix pat.length (c :: a1))
        exact findFirst_none_no_occur hnone 0 hpfx
      · push_neg at hlen
        have hlen2 : (c :: a1).length < pat.length := hlen
        have htake : pat = (c :: (a1 ++ pat ++ b)).take pat.length :=
          List.prefix_iff_eq_take.mp ⟨t, ht⟩
        have htake2 : (c :: (a1 ++ pat ++ b)).take pat.length
            = (c :: a1) ++ pat.take (pat.length - (c :: a1).length) := by
          have e0 : c :: (a1 ++ pat ++ b) = (c :: a1) ++ (pat ++ b) := by simp
          have e1 : (c :: a1).take pat.length = c :: a1 :=
            List.take_of_length_le (Nat.le_of_lt hlen2)
          have e2 : (pat ++ b).take (pat.length - (c :: a1).length)
              = pat.take (pat.length - (c :: a1).length) :=
            List.take_append_of_le_length (by omega)
          rw [e0, List.take_append_eq_append_take, e1, e2]
        have hself : pat.drop (c :: a1).length = pat.take (pat.length - (c :: a1).length) := by
          have hpat : pat = (c :: a1) ++ pat.take (pat.length - (c :: a1).length) := by
            conv_lhs => rw [htake, htake2]
          conv_lhs => rw [hpat]
          exact List.drop_left _ _
        exact hbf (c :: a1).length (by simp) hlen2 hself
    rw [hshape]
    unfold findFirst
    rw [if_neg hpre, hrec]

theorem transformAux_nil : ∀ fuel, transformAux fuel [] = []
  | 0 => rfl
  | fuel + 1 => by
    unfold transformAux
    have h : findFirst bqOpen [] = none := by
      unfold findFirst
      rw [if_neg (by decide)]
    rw [h]

theorem dropWhile_head_false {p : Char → Bool} :
    ∀ {l x : List Char} {c : Char}, l.dropWhile p = c :: x → p c = false
  | [], x, c, h => by simp [List.dropWhile] at h
  | a :: r, x, c, h => by
    rw [List.dropWhile_cons] at h
    by_cases hp : p a = true
    · rw [if_pos hp] at h
      exact dropWhile_head_false h
    · rw [if_neg hp] at h
      simp only [List.cons.injEq] at h
      rw [← h.1]
      exact Bool.not_eq_true _ |>.mp hp

theorem insertBadge_cases (b inner2 : List Char) :
    (∃ attrs rest, inner2 = '<' :: 'p' :: (attrs ++ '>' :: rest) ∧ (∀ c ∈ attrs, ¬ c = '>') ∧
      insertBadge b inner2 = '<' :: 'p' :: (attrs ++ '>' :: (b ++ ' ' :: rest))) ∨
    ((¬ ∃ attrs rest, inner2 = '<' :: 'p' :: (attrs ++ '>' :: rest)) ∧
      insertBadge b inner2 = b ++ inner2) := by
  rcases inner2 with _ | ⟨c1, _ | ⟨c2, r⟩⟩
  · right
    exact ⟨by simp, rfl⟩
  · right
    refine ⟨?_, rfl⟩
    rintro ⟨attrs, rest, hcon⟩
    simp at hcon
  · by_cases h12 : c1 = '<' ∧ c2 = 'p'
    · obtain ⟨rfl, rfl⟩ := h12
      cases hd : r.dropWhile (fun c => !(c = '>')) with
      | nil =>
        right
        constructor
        · rintro ⟨attrs, rest, hcon⟩
          simp only [List.cons.injEq, true_and] at hcon
          have hall : ∀ x ∈ r, (fun c => !(c = '>')) x = true :=
            List.dropWhile_eq_nil_iff.mp hd
          have hgt : ('>' : Char) ∈ r := by rw [hcon]; simp
          have := hall '>' hgt
          simp at this
        · show insertBadge b ('<' :: 'p' :: r) = b ++ ('<' :: 'p' :: r)
          unfold insertBadge
          simp only []
          rw [if_pos ⟨trivial, trivial⟩, hd]
      | cons g rest =>
        have hg : g = '>' := by
          have := dropWhile_head_false hd
          simpa using this
        subst hg
        left
        refine ⟨r.takeWhile (fun c => !(c = '>')), rest, ?_, ?_, ?_⟩
        · have hsplit : r = r.takeWhile (fun c => !(c = '>')) ++ ('>' :: rest) := by
            conv_lhs => rw [← List.takeWhile_append_dropWhile (fun c => !(c = '>')) r]
            rw [hd]
          conv_lhs => rw [hsplit]
        · intro c hc
          have := List.mem_takeWhile_imp hc
          simpa using this
        · unfold insertBadge
          simp only []
          rw [if_pos ⟨trivial, trivial⟩, hd]
          simp only []
          rw [if_pos trivial]
    · right
      constructor
      · rintro ⟨attrs, rest, hcon⟩
        simp only [List.cons.injEq] at hcon
        exact h12 ⟨hcon.1, hcon.2.1⟩
      · unfold insertBadge
        simp only []
        rw [if_neg h12]

theorem calloutRepl_of_none {inner : List Char} (h : searchMarker inner = none) :
    calloutRepl inner = bqOpen ++ inner ++ bqClose := by
  unfold calloutRepl
  rw [h]

theorem calloutRepl_of_some {inner k t : List Char} (h : searchMarker inner = some (k, t)) :
    calloutRepl inner = bqOpen ++ insertBadge (badgeFor k t) (removeMarker inner) ++ bqClose := by
  unfold calloutRepl
  rw [h]

theorem bqClose_border_free :
    ∀ k, 0 < k → k < bqClose.length → bqClose.drop k ≠ bqClose.take (bqClose.length - k) := by
  intro k h1 h2
  have h13 : bqClose.length = 13 := by decide
  rw [h13] at h2
  interval_cases k <;> decide

/-- The substitution on a text consisting of exactly one blockquote span whose
inner content has no close tag acts as the replacement function on that span. -/
theorem transformList_single_block {inner : List Char}
    (hnc : findFirst bqClose inner = none) :
    transformList (bqOpen ++ inner ++ bqClose) = calloutRepl inner := by
  have hopen : findFirst bqOpen (bqOpen ++ inner ++ bqClose) = some ([], inner ++ bqClose) := by
    rw [show bqOpen ++ inner ++ bqClose = bqOpen ++ (inner ++ bqClose) by simp]
    exact findFirst_self (by decide)
  have hclose : findFirst bqClose (inner ++ bqClose) = some (inner, []) := by
    have h := findFirst_append_pat (show bqClose ≠ [] by decide) bqClose_border_free
      (a := inner) [] hnc
    simpa using h
  have h12 : bqOpen.length = 12 := by decide
  have h13 : bqClose.length = 13 := by decide
  have hlen : (bqOpen ++ inner ++ bqClose).length = inner.length + 24 + 1 := by
    rw [List.length_append, List.length_append, h12, h13]
    omega
  unfold transformList
  rw [hlen]
  unfold transformAux
  rw [hopen]
  simp only []
  rw [hclose]
  simp only []
  rw [transformAux_nil]
  simp

/-! ## Claim theorems for the callout post-processor -/

/-- C3: preprocessing the header with a title yields the titled marker line;
a converter pass wrapping that marker in the canonical blockquote fragment
followed by the post-processor yields a block whose badge span carries the
kind as the styling hook and the trimmed title as the visible label, with
the marker comment absent from the output; the title-less header yields the
title-less marker and a badge with the kind and an empty label, with no
placeholder text such as the word None appearing. -/
theorem C3_header_end_to_end :
    preprocess_obsidian "> [!tip] Hello" = "> <!--callout:tip title=\"Hello\"-->" ∧
    transform_callouts
        "<blockquote>\n<p><!--callout:tip title=\"Hello\"-->\nbody</p>\n</blockquote>"
      = "<blockquote><span data-callout=\"tip\">Hello</span>\n<p>body</p>\n</blockquote>" ∧
    occursIn "<!--".data
      "<blockquote><span data-callout=\"tip\">Hello</span>\n<p>body</p>\n</blockquote>".data
      = false ∧
    preprocess_obsidian "> [!warning]" = "> <!--callout:warning-->" ∧
    transform_callouts "<blockquote>\n<p><!--callout:warning-->\nbody</p>\n</blockquote>"
      = "<blockquote><span data-callout=\"warning\"></span>\n<p>body</p>\n</blockquote>" ∧
    occursIn "None".data
      "<blockquote><span data-callout=\"warning\"></span>\n<p>body</p>\n</blockquote>".data
      = false ∧
    occursIn "<!--".data
      "<blockquote><span data-callout=\"warning\"></span>\n<p>body</p>\n</blockquote>".data
      = false := by
  exact ⟨by decide, by decide, by decide, by decide, by decide, by decide, by decide⟩

/-- C2 counterexample: in a rendered document whose top-level blockquote
block carries a marker and contains two nested blockquotes, the second one
itself containing a marker comment, the scanner pairs tags by nearest match:
the nested marker is extracted (the nested quote content is altered) and its
badge is injected inside the nested quote. -/
theorem C2_counterexample :
    transform_callouts
        "<blockquote><!--callout:note-->a<blockquote>b</blockquote>c<blockquote><!--callout:tip-->d</blockquote>e</blockquote>"
      = "<blockquote><span data-callout=\"note\"></span>a<blockquote>b</blockquote>c<blockquote><span data-callout=\"tip\"></span>d</blockquote>e</blockquote>" ∧
    occursIn "<blockquote><!--callout:tip-->d</blockquote>".data
      "<blockquote><span data-callout=\"note\"></span>a<blockquote>b</blockquote>c<blockquote><span data-callout=\"tip\"></span>d</blockquote>e</blockquote>".data
      = false ∧
    occursIn "<blockquote><span data-callout=\"tip\"></span>d</blockquote>".data
      "<blockquote><span data-callout=\"note\"></span>a<blockquote>b</blockquote>c<blockquote><span data-callout=\"tip\"></span>d</blockquote>e</blockquote>".data
      = true := by
  exact ⟨by decide, by decide, by decide⟩

/-- C2 (amended): only when the marker lies in the top-level block content
before the nested blockquote does the post-processor place the badge at the
top level of the outer block and leave the nested ordinary quote untouched —
on the canonical rendered form the output starts with the outer opener
followed directly by the single badge, the nested quote reappears verbatim,
and no badge is injected into it; a marker inside a nested quote is instead
treated as part of the outer span and rewritten there (see the
counterexample). -/
theorem C2_amended_top_level_marker :
    transform_callouts
        "<blockquote>\n<p><!--callout:note title=\"T\"-->\nouter</p>\n<blockquote>\n<p>inner</p>\n</blockquote>\n</blockquote>"
      = "<blockquote><span data-callout=\"note\">T</span>\n<p>outer</p>\n<blockquote>\n<p>inner</p>\n</blockquote>\n</blockquote>" ∧
    occursIn "<blockquote>\n<p>inner</p>\n</blockquote>".data
      "<blockquote><span data-callout=\"note\">T</span>\n<p>outer</p>\n<blockquote>\n<p>inner</p>\n</blockquote>\n</blockquote>".data
      = true ∧
    occursIn "<span".data
      "\n<p>outer</p>\n<blockquote>\n<p>inner</p>\n</blockquote>\n</blockquote>".data
      = false := by
  exact ⟨by decide, by decide, by decide⟩

/-- C9 counterexample: the block content holds a paragraph child element, yet
after marker removal the content still starts with a line feed, so the badge
is prepended to the whole content instead of being inserted as a prefix of
that paragraph. -/
theorem C9_counterexample :
    transform_callouts "<blockquote>\n<p><!--callout:note-->x</p>\n</blockquote>"
      = "<blockquote><span data-callout=\"note\"></span>\n<p>x</p>\n</blockquote>" ∧
    occursIn "<p".data
      "<blockquote><span data-callout=\"note\"></span>\n<p>x</p>\n</blockquote>".data = true ∧
    occursIn "<p><span".data
      "<blockquote><span data-callout=\"note\"></span>\n<p>x</p>\n</blockquote>".data = false := by
  exact ⟨by decide, by decide, by decide⟩

/-- C9 (amended): for a single blockquote span whose content holds no close
tag, a content without marker is returned completely unmodified; when a
marker is found, the badge is inserted inside the leading paragraph-like tag
only when the content after marker removal begins with that tag, and
otherwise the badge is prepended to the whole content. -/
theorem C9_amended_badge_insertion (inner : List Char)
    (hnc : findFirst bqClose inner = none) :
    (searchMarker inner = none →
      transformList (bqOpen ++ inner ++ bqClose) = bqOpen ++ inner ++ bqClose) ∧
    (∀ k t, searchMarker inner = some (k, t) →
      ((∃ attrs rest, removeMarker inner = '<' :: 'p' :: (attrs ++ '>' :: rest) ∧
          (∀ c ∈ attrs, ¬ c = '>') ∧
          transformList (bqOpen ++ inner ++ bqClose)
            = bqOpen ++ ('<' :: 'p' :: (attrs ++ '>' :: (badgeFor k t ++ ' ' :: rest)))
                ++ bqClose) ∨
       ((¬ ∃ attrs rest, removeMarker inner = '<' :: 'p' :: (attrs ++ '>' :: rest)) ∧
          transformList (bqOpen ++ inner ++ bqClose)
            = bqOpen ++ (badgeFor k t ++ removeMarker inner) ++ bqClose))) := by
  constructor
  · intro h
    rw [transformList_single_block hnc, calloutRepl_of_none h]
  · intro k t h
    rcases insertBadge_cases (badgeFor k t) (removeMarker inner) with
      ⟨attrs, rest, h1, h2, h3⟩ | ⟨h1, h2⟩
    · left
      exact ⟨attrs, rest, h1, h2, by
        rw [transformList_single_block hnc, calloutRepl_of_some h, h3]⟩
    · right
      exact ⟨h1, by rw [transformList_single_block hnc, calloutRepl_of_some h, h2]⟩

/-- Witness for the amended C9: a marker-free content passes through the
whole substitution unmodified. -/
theorem C9_amended_badge_insertion_witness :
    findFirst bqClose "\n<p>plain</p>\n".data = none ∧
    searchMarker "\n<p>plain</p>\n".data = none ∧
    transformList (bqOpen ++ "\n<p>plain</p>\n".data ++ bqClose)
      = bqOpen ++ "\n<p>plain</p>\n".data ++ bqClose := by
  refine ⟨by decide, by decide, ?_⟩
  exact (C9_amended_badge_insertion "\n<p>plain</p>\n".data (by decide)).1 (by decide)

/-- C10 counterexample: embedding the title with a double quote unescaped
keeps the first half of the claim true, but the marker search then matches
nothing, so the post-processor returns the block unchanged — no badge at all
is produced, rather than a badge labelled with the prefix before the first
quote. -/
theorem C10_counterexample :
    preprocess_obsidian "> [!note] say \"hi\" now"
      = "> <!--callout:note title=\"say \"hi\" now\"-->" ∧
    transform_callouts
        "<blockquote>\n<p><!--callout:note title=\"say \"hi\" now\"-->\nbody</p>\n</blockquote>"
      = "<blockquote>\n<p><!--callout:note title=\"say \"hi\" now\"-->\nbody</p>\n</blockquote>" ∧
    occursIn "data-callout".data
      "<blockquote>\n<p><!--callout:note title=\"say \"hi\" now\"-->\nbody</p>\n</blockquote>".data
      = false := by
  exact ⟨by decide, by decide, by decide⟩

/-- C10 (amended): the preprocessor embeds a quoted title unescaped; the
post-processor marker search then fails on such a marker and leaves the
block unmodified with the marker comment intact, unless the text after the
first embedded quote itself completes the marker tail, in which case the
badge label is the prefix of the title before its first double quote and the
leftover tail stays behind as literal text. -/
theorem C10_amended_unescaped_quote :
    preprocess_obsidian "> [!note] say \"hi\" now"
      = "> <!--callout:note title=\"say \"hi\" now\"-->" ∧
    searchMarker "\n<p><!--callout:note title=\"say \"hi\" now\"-->\nbody</p>\n".data = none ∧
    transform_callouts
        "<blockquote>\n<p><!--callout:note title=\"say \"hi\" now\"-->\nbody</p>\n</blockquote>"
      = "<blockquote>\n<p><!--callout:note title=\"say \"hi\" now\"-->\nbody</p>\n</blockquote>" ∧
    preprocess_obsidian "> [!note] a\" -->x" = "> <!--callout:note title=\"a\" -->x\"-->" ∧
    searchMarker "\n<p><!--callout:note title=\"a\" -->x\"-->\nbody</p>\n".data
      = some ("note".data, "a".data) ∧
    transform_callouts
        "<blockquote>\n<p><!--callout:note title=\"a\" -->x\"-->\nbody</p>\n</blockquote>"
      = "<blockquote><span data-callout=\"note\">a</span>\n<p>x\"-->\nbody</p>\n</blockquote>" := by
  exact ⟨by decide, by decide, by decide, by decide, by decide, by decide⟩

/-! ## Claim theorems for output path resolution -/

/-- C5: the destination file name is always the source stem with the pdf
extension; without structure preservation placement is flat; with it and a
base root the relative parent is mirrored under the output root; when the
parent is not under the base root the resolver falls back to flat placement
instead of failing. -/
theorem C5_out_path (preserve : Bool) (base : Option PyPath) (out md : PyPath) :
    ((compute_out_path preserve base out md).parts.getLast?
      = some (⟨pyStem md.name.data⟩ ++ ".pdf")) ∧
    (preserve = false →
      compute_out_path preserve base out md
        = ⟨out.absolute, out.parts ++ [⟨pyStem md.name.data⟩ ++ ".pdf"]⟩) ∧
    (∀ b rel, base = some b → preserve = true → relative_to md.parent b = some rel →
      compute_out_path preserve base out md
        = ⟨out.absolute, out.parts ++ rel ++ [⟨pyStem md.name.data⟩ ++ ".pdf"]⟩) ∧
    (∀ b, base = some b → preserve = true → relative_to md.parent b = none →
      compute_out_path preserve base out md
        = ⟨out.absolute, out.parts ++ [⟨pyStem md.name.data⟩ ++ ".pdf"]⟩) := by
  refine ⟨?_, ?_, ?_, ?_⟩
  · unfold compute_out_path
    cases preserve <;> cases base <;> simp only [] <;> exact List.getLast?_concat _
  · intro hp
    subst hp
    unfold compute_out_path
    cases base <;> rfl
  · intro b rel hb hp hrel
    subst hb hp
    unfold compute_out_path
    simp only [hrel, Option.getD_some]
  · intro b hb hp hrel
    subst hb hp
    unfold compute_out_path
    simp only [hrel, Option.getD_none, List.append_nil]

/-- Witness for C5 at the spec example: source under base root mirrors the
relative directory, and an unrelated base root falls back to flat. -/
theorem C5_out_path_witness :
    relative_to (PyPath.parent ⟨true, ["a", "b", "x.md"]⟩) ⟨true, ["a"]⟩ = some ["b"] ∧
    compute_out_path true (some ⟨true, ["a"]⟩) ⟨true, ["out"]⟩ ⟨true, ["a", "b", "x.md"]⟩
      = ⟨true, ["out", "b", "x.pdf"]⟩ ∧
    compute_out_path true (some ⟨true, ["q"]⟩) ⟨true, ["out"]⟩ ⟨true, ["a", "b", "x.md"]⟩
      = ⟨true, ["out", "x.pdf"]⟩ := by
  refine ⟨by decide, ?_, ?_⟩
  · have h := (C5_out_path true (some ⟨true, ["a"]⟩) ⟨true, ["out"]⟩
      ⟨true, ["a", "b", "x.md"]⟩).2.2.1 ⟨true, ["a"]⟩ ["b"] rfl rfl (by decide)
    rw [h]
    decide
  · have h := (C5_out_path true (some ⟨true, ["q"]⟩) ⟨true, ["out"]⟩
      ⟨true, ["a", "b", "x.md"]⟩).2.2.2 ⟨true, ["q"]⟩ rfl rfl (by decide)
    rw [h]
    decide

/-- C6 counterexample: for a singleton set the computation returns the path
itself, file name included, which is not an ancestor (even allowing equality)
of the path's parent directory — so it is not the deepest directory that is
an ancestor of every path's parent. -/
theorem C6_counterexample :
    common_base [⟨true, ["a", "b", "x.md"]⟩] = some ⟨true, ["a", "b", "x.md"]⟩ ∧
    isAncestorOrSelf ⟨true, ["a", "b", "x.md"]⟩
      (PyPath.parent ⟨true, ["a", "b", "x.md"]⟩) = false := by
  exact ⟨by decide, by decide⟩

theorem lcpParts_prefix_left : ∀ a b : List String, lcpParts a b <+: a
  | [], _ => by simp [lcpParts]
  | _ :: _, [] => by simp [lcpParts]
  | x :: xs, y :: ys => by
    unfold lcpParts
    by_cases hxy : x = y
    · rw [if_pos hxy]
      obtain ⟨t, ht⟩ := lcpParts_prefix_left xs ys
      exact ⟨t, by simp [ht]⟩
    · rw [if_neg hxy]
      simp

theorem lcpParts_prefix_right : ∀ a b : List String, lcpParts a b <+: b
  | [], _ => by simp [lcpParts]
  | _ :: _, [] => by simp [lcpParts]
  | x :: xs, y :: ys => by
    unfold lcpParts
    by_cases hxy : x = y
    · rw [if_pos hxy, hxy]
      obtain ⟨t, ht⟩ := lcpParts_prefix_right xs ys
      exact ⟨t, by simp [ht]⟩
    · rw [if_neg hxy]
      simp

theorem lcpParts_greatest : ∀ a b c : List String, c <+: a → c <+: b → c <+: lcpParts a b
  | _, _, [], _, _ => by simp
  | [], _, c :: cs, ha, _ => by simp at ha
  | _ :: _, [], c :: cs, _, hb => by simp at hb
  | x :: xs, y :: ys, c :: cs, ha, hb => by
    obtain ⟨ta, hta⟩ := ha
    obtain ⟨tb, htb⟩ := hb
    simp only [List.cons_append, List.cons.injEq] at hta htb
    unfold lcpParts
    rw [if_pos (hta.1.symm.trans htb.1)]
    have hrec := lcpParts_greatest xs ys cs ⟨ta, hta.2⟩ ⟨tb, htb.2⟩
    obtain ⟨t, ht⟩ := hrec
    exact ⟨t, by rw [← hta.1]; simp [ht]⟩

theorem foldl_lcp_spec (ps : List PyPath) :
    ∀ acc : List String,
      (ps.foldl (fun a q => lcpParts a q.parts) acc) <+: acc ∧
      (∀ p ∈ ps, (ps.foldl (fun a q => lcpParts a q.parts) acc) <+: p.parts) ∧
      (∀ c : List String, c <+: acc → (∀ p ∈ ps, c <+: p.parts) →
        c <+: ps.foldl (fun a q => lcpParts a q.parts) acc) := by
  induction ps with
  | nil => exact fun acc => ⟨List.prefix_refl acc, by simp, fun c hc _ => hc⟩
  | cons q ps ih =>
    intro acc
    obtain ⟨ih1, ih2, ih3⟩ := ih (lcpParts acc q.parts)
    refine ⟨?_, ?_, ?_⟩
    · exact ih1.trans (lcpParts_prefix_left acc q.parts)
    · intro p hp
      rcases List.mem_cons.mp hp with rfl | hp
      · exact ih1.trans (lcpParts_prefix_right acc p.parts)
      · exact ih2 p hp
    · intro c hc hall
      exact ih3 c
        (lcpParts_greatest acc q.parts c hc (hall q (List.mem_cons_self _ _)))
        (fun p hp => hall p (List.mem_cons_of_mem _ hp))

/-- C6 (amended): the computation returns none for the empty set and for
mixed anchors; for a singleton it returns the path itself, with the file
name, rather than an ancestor of the parent; in general, on a set with a
common anchor it returns the longest common component prefix of the paths
themselves (greatest common prefix specification below), which on the spec
example pair of sources is the deepest directory ancestral to both parents. -/
theorem C6_amended_common_base :
    common_base [] = none ∧
    (∀ p : PyPath, common_base [p] = some p) ∧
    common_base [⟨true, ["a", "b", "x.md"]⟩, ⟨true, ["a", "c", "y.md"]⟩]
      = some ⟨true, ["a"]⟩ ∧
    common_base [⟨true, ["a"]⟩, ⟨false, ["b"]⟩] = none ∧
    (∀ ps r, common_base ps = some r →
      (∀ p ∈ ps, r.absolute = p.absolute ∧ r.parts <+: p.parts) ∧
      (∀ c : List String, (∀ p ∈ ps, c <+: p.parts) → c <+: r.parts)) := by
  refine ⟨rfl, fun p => rfl, by decide, by decide, ?_⟩
  intro ps r hr
  match ps with
  | [] => exact absurd hr (by simp [common_base])
  | p :: ps =>
    unfold common_base at hr
    simp only [] at hr
    by_cases hall : ps.all (fun q => q.absolute == p.absolute)
    · rw [if_pos hall] at hr
      obtain rfl : (⟨p.absolute, ps.foldl (fun acc q => lcpParts acc q.parts) p.parts⟩ : PyPath)
          = r := by simpa using hr
      obtain ⟨h1, h2, h3⟩ := foldl_lcp_spec ps p.parts
      constructor
      · intro x hx
        rcases List.mem_cons.mp hx with rfl | hx
        · exact ⟨rfl, h1⟩
        · refine ⟨?_, h2 x hx⟩
          have := List.all_eq_true.mp hall x hx
          exact (beq_iff_eq.mp this).symm
      · intro c hc
        exact h3 c (hc p (List.mem_cons_self _ _)) (fun x hx => hc x (List.mem_cons_of_mem _ hx))
    · rw [if_neg hall] at hr
      exact absurd hr (by simp)

/-- Witness for the amended C6: the greatest-common-prefix specification at
the spec example pair. -/
theorem C6_amended_common_base_witness :
    ∀ p ∈ [(⟨true, ["a", "b", "x.md"]⟩ : PyPath), ⟨true, ["a", "c", "y.md"]⟩],
      (⟨true, ["a"]⟩ : PyPath).absolute = p.absolute ∧
      (⟨true, ["a"]⟩ : PyPath).parts <+: p.parts := by
  exact (C6_amended_common_base.2.2.2.2 _ ⟨true, ["a"]⟩ (by decide)).1

/-! ## Claim theorems for the batch runner -/

theorem runLoop_results_src (proc : String → Except PyExc String) (total : Nat) :
    ∀ (i : Nat) (fs : List String),
      ((runLoop proc total i fs).2).map (fun o => o.src) = fs
  | _, [] => rfl
  | i, p :: ps => by
    have ih := runLoop_results_src proc total (i + 1) ps
    unfold runLoop
    cases hp : proc p <;> simp only [] <;> simpa using ih

theorem runLoop_results_mem (proc : String → Except PyExc String) (total : Nat) :
    ∀ (i : Nat) (fs : List String) (o : Outcome), o ∈ (runLoop proc total i fs).2 →
      (o.ok = true ∧ o.err = "" ∧ ∃ d, proc o.src = Except.ok d ∧ o.dest = d) ∨
      (o.ok = false ∧ o.dest = "" ∧
        ∃ e, proc o.src = Except.error e ∧ o.err = format_exception_only e)
  | _, [], o, ho => absurd ho (by simp [runLoop])
  | i, p :: ps, o, ho => by
    have ih := runLoop_results_mem proc total (i + 1) ps o
    unfold runLoop at ho
    cases hp : proc p with
    | ok d =>
      rw [hp] at ho
      simp only [] at ho
      rcases List.mem_cons.mp ho with rfl | ho
      · exact Or.inl ⟨rfl, rfl, d, hp, rfl⟩
      · exact ih ho
    | error e =>
      rw [hp] at ho
      simp only [] at ho
      rcases List.mem_cons.mp ho with rfl | ho
      · exact Or.inr ⟨rfl, rfl, e, hp, rfl⟩
      · exact ih ho

theorem pyStrip_ne_nil {l : List Char} {c : Char} (hc : c ∈ l)
    (hns : isPySpace c = false) : pyStrip l ≠ [] := by
  intro h
  unfold pyStrip at h
  rw [List.reverse_eq_nil_iff] at h
  have h2 := List.dropWhile_eq_nil_iff.mp h
  have hcd : c ∈ l.dropWhile isPySpace := by
    rcases List.mem_append.mp
        (by rw [List.takeWhile_append_dropWhile isPySpace l]; exact hc :
          c ∈ l.takeWhile isPySpace ++ l.dropWhile isPySpace) with h3 | h3
    · exact absurd (List.mem_takeWhile_imp h3) (by rw [hns]; simp)
    · exact h3
  have := h2 c (List.mem_reverse.mpr hcd)
  rw [hns] at this
  exact absurd this (by simp)

theorem format_exception_only_ne {e : PyExc} (h1 : e.typeName ≠ "")
    (h2 : ∀ c ∈ e.typeName.data, isPySpace c = false) :
    format_exception_only e ≠ "" := by
  unfold format_exception_only
  by_cases hm : e.msg.isEmpty
  · rw [if_pos hm]
    intro hcon
    have hdata : pyStrip e.typeName.data = [] := congrArg String.data hcon
    have hne : e.typeName.data ≠ [] := by
      intro hnil
      exact h1 (String.ext (by rw [hnil]))
    cases hd : e.typeName.data with
    | nil => exact hne hd
    | cons c rest =>
      exact pyStrip_ne_nil (by rw [hd]; exact List.mem_cons_self _ _)
        (h2 c (by rw [hd]; exact List.mem_cons_self _ _)) hdata
  · rw [if_neg hm]
    intro hcon
    have hdata : pyStrip (e.typeName ++ ": " ++ e.msg).data = [] := congrArg String.data hcon
    have hcolon : (':' : Char) ∈ (e.typeName ++ ": " ++ e.msg).data := by
      have hsplit : (e.typeName ++ ": " ++ e.msg).data
          = e.typeName.data ++ ": ".data ++ e.msg.data := rfl
      rw [hsplit]
      simp
    exact pyStrip_ne_nil hcolon (by decide) hdata

/-- C1: one outcome per requested document, in request order; a document
whose processing raises is recorded as a failed outcome with an empty
destination and a non-empty formatted error, the loop continues, and the run
always ends by emitting the aggregated result list. -/
theorem C1_batch_isolation (proc : String → Except PyExc String) (files : List String)
    (_hne : files ≠ [])
    (hexc : ∀ p e, proc p = Except.error e →
      e.typeName ≠ "" ∧ ∀ c ∈ e.typeName.data, isPySpace c = false) :
    (run_results proc files).map (fun o => o.src) = files ∧
    (∀ o ∈ run_results proc files, o.ok = false → o.dest = "" ∧ o.err ≠ "") ∧
    ConvertTask_run proc files
      = (runLoop proc files.length 1 files).1
        ++ [RunEvent.done (run_results proc files)] := by
  refine ⟨runLoop_results_src proc files.length 1 files, ?_, rfl⟩
  intro o ho hok
  rcases runLoop_results_mem proc files.length 1 files o ho with ⟨h1, _⟩ | ⟨_, h2, e, he, herr⟩
  · rw [h1] at hok
    exact absurd hok (by simp)
  · obtain ⟨hn1, hn2⟩ := hexc o.src e he
    exact ⟨h2, by rw [herr]; exact format_exception_only_ne hn1 hn2⟩

/-- Witness for C1 with the stub processor: three documents, the second
raising, yield three outcomes in order, the failed one with empty
destination and non-empty error, and the completion event is emitted. -/
theorem C1_batch_isolation_witness :
    (run_results procW ["a.md", "b.md", "c.md"]).map (fun o => o.src)
      = ["a.md", "b.md", "c.md"] ∧
    (∀ o ∈ run_results procW ["a.md", "b.md", "c.md"], o.ok = false →
      o.dest = "" ∧ o.err ≠ "") ∧
    ConvertTask_run procW ["a.md", "b.md", "c.md"]
      = (runLoop procW 3 1 ["a.md", "b.md", "c.md"]).1
        ++ [RunEvent.done (run_results procW ["a.md", "b.md", "c.md"])] := by
  have hexc : ∀ p e, procW p = Except.error e →
      e.typeName ≠ "" ∧ ∀ c ∈ e.typeName.data, isPySpace c = false := by
    intro p e he
    unfold procW at he
    by_cases hp : p = "b.md"
    · rw [if_pos hp] at he
      obtain rfl : (⟨"OSError", "boom"⟩ : PyExc) = e := by simpa using he
      exact ⟨by decide, by decide⟩
    · rw [if_neg hp] at he
      exact absurd he (by simp)
  exact C1_batch_isolation procW ["a.md", "b.md", "c.md"] (by simp) hexc

theorem runLoop_progress (proc : String → Except PyExc String) (total : Nat) :
    ∀ (i : Nat) (fs : List String),
      ((runLoop proc total i fs).1).filterMap progressOf
        = (List.range' i fs.length).map (fun j => (j, total))
  | _, [] => rfl
  | i, p :: ps => by
    have ih := runLoop_progress proc total (i + 1) ps
    unfold runLoop
    cases hp : proc p <;> simp only [] <;>
      simp [List.filterMap_cons, progressOf, ih, List.range'_succ]

theorem runLoop_no_done (proc : String → Except PyExc String) (total : Nat) :
    ∀ (i : Nat) (fs : List String) (ev : RunEvent),
      ev ∈ (runLoop proc total i fs).1 → isDone ev = false
  | _, [], ev, hev => absurd hev (by simp [runLoop])
  | i, p :: ps, ev, hev => by
    have ih := runLoop_no_done proc total (i + 1) ps ev
    unfold runLoop at hev
    cases hp : proc p <;>
      (rw [hp] at hev
       simp only [List.append_eq, List.cons_append, List.nil_append] at hev
       rcases List.mem_cons.mp hev with rfl | hev
       · rfl
       rcases List.mem_cons.mp hev with rfl | hev
       · rfl
       rcases List.mem_cons.mp hev with rfl | hev
       · rfl
       · exact ih hev)

theorem runLoop_chunk (proc : String → Except PyExc String) (total : Nat) :
    ∀ (fs : List String) (i j : Nat) (h : j < fs.length), ∃ pre post,
      (runLoop proc total i fs).1
        = pre ++ RunEvent.progress (i + j) total ::
            RunEvent.message ("Конвертация: " ++ fs.get ⟨j, h⟩) :: post
  | [], _, j, h => absurd h (by simp)
  | p :: ps, i, 0, _ => by
    unfold runLoop
    cases hp : proc p with
    | ok d =>
      exact ⟨[], RunEvent.message ("✓ Готово: " ++ d) :: (runLoop proc total (i + 1) ps).1,
        by simp⟩
    | error e =>
      exact ⟨[], RunEvent.message ("✗ Ошибка: " ++ p ++ "\n  " ++ format_exception_only e)
          :: (runLoop proc total (i + 1) ps).1, by simp⟩
  | p :: ps, i, j + 1, h => by
    obtain ⟨pre, post, ih⟩ := runLoop_chunk proc total ps (i + 1) j (by simpa using h)
    have harith : i + 1 + j = i + (j + 1) := by omega
    rw [harith] at ih
    unfold runLoop
    cases hp : proc p with
    | ok d =>
      refine ⟨RunEvent.progress i total :: RunEvent.message ("Конвертация: " ++ p) ::
        RunEvent.message ("✓ Готово: " ++ d) :: pre, post, ?_⟩
      simp only []
      rw [ih]
      simp
    | error e =>
      refine ⟨RunEvent.progress i total :: RunEvent.message ("Конвертация: " ++ p) ::
        RunEvent.message ("✗ Ошибка: " ++ p ++ "\n  " ++ format_exception_only e) :: pre,
        post, ?_⟩
      simp only []
      rw [ih]
      simp

/-- C8: the progress events of a run are exactly the pairs of an index and
the total for indices one through the document count, in order (strictly
increasing); each progress event is immediately followed by the starting log
line of its document, so it precedes that document's processing; and the
completion event carrying the aggregated results is emitted exactly once, as
the final event of the run. -/
theorem C8_progress_ordering (proc : String → Except PyExc String) (files : List String) :
    (ConvertTask_run proc files).filterMap progressOf
      = (List.range' 1 files.length).map (fun j => (j, files.length)) ∧
    (ConvertTask_run proc files).filter isDone
      = [RunEvent.done (run_results proc files)] ∧
    (ConvertTask_run proc files).getLast? = some (RunEvent.done (run_results proc files)) ∧
    (∀ i (h : i < files.length), ∃ pre post,
      ConvertTask_run proc files
        = pre ++ RunEvent.progress (1 + i) files.length ::
            RunEvent.message ("Конвертация: " ++ files.get ⟨i, h⟩) :: post) := by
  refine ⟨?_, ?_, ?_, ?_⟩
  · unfold ConvertTask_run
    rw [List.filterMap_append]
    simp [progressOf, runLoop_progress proc files.length 1 files, run_results]
  · unfold ConvertTask_run
    rw [List.filter_append]
    rw [List.filter_eq_nil_iff.mpr
      (fun ev hev => by simp [runLoop_no_done proc files.length 1 files ev hev])]
    rfl
  · unfold ConvertTask_run
    exact List.getLast?_concat _
  · intro i h
    obtain ⟨pre, post, hch⟩ := runLoop_chunk proc files.length files 1 i h
    refine ⟨pre, post ++ [RunEvent.done (run_results proc files)], ?_⟩
    show (runLoop proc files.length 1 files).1
        ++ [RunEvent.done (run_results proc files)] = _
    rw [hch]
    simp

/-- Witness for C8 with the stub processor over three documents. -/
theorem C8_progress_ordering_witness :
    ∃ pre post, ConvertTask_run procW ["a.md", "b.md", "c.md"]
      = pre ++ RunEvent.progress (1 + 1) 3 ::
          RunEvent.message ("Конвертация: " ++ (["a.md", "b.md", "c.md"].get ⟨1, by simp⟩))
          :: post := by
  exact (C8_progress_ordering procW ["a.md", "b.md", "c.md"]).2.2.2 1 (by simp)

end MdPdf
